import Mathlib

/-!
Verification development for the 1C/Locman reconciliation assistant.

The definitions below are a shallow embedding of the core of the repository:

* the string normalizer `normalize_string` and the comparison routine
  `compare_files_1c_locman` from `src/assistent_logic.py` (modelled by
  `normChars`, `locEntries`, `onecEntries`, `matchesList`, `nomatchesList`,
  `nomatches1cList`);
* the mapping store from `src/assistent_db.py` (modelled by `save_mappings`,
  `delete_mappings`, `identPresent`, `loadNames`, `get_all_mappings_count`,
  and the failure-aware variant `save_mappings_exc`).

CSV cells are modelled as `String` (Python's `csv.reader` yields strings) and a
parsed file as `List (List String)`.  The store table is modelled as the list
of its rows `(name_loc, loc_path, name_1c)`; the autoincrement id and the two
timestamp columns are omitted: they influence only the `ORDER BY updated_at`
clause of `load_mappings`, whose ordering is erased by the set semantics of the
loaded dictionary.  The candidate-map output (`locman_options`) of
`compare_files_1c_locman` is not modelled: no claim concerns it.
-/

/-- Whitespace test covering the ASCII whitespace characters that Python's
`str.split()` and `str.strip()` treat as separators in the data handled here. -/
def isSpaceChar (c : Char) : Bool :=
  c = ' ' || c = '\t' || c = '\n' || c = '\r' || c = '\x0b' || c = '\x0c'

/-- Character-level lowercasing used by the normalizer (`s.lower()` in the
source; modelled by Lean's `Char.toLower`). -/
def lowerChar (c : Char) : Char := c.toLower

/-- The scanner implementing Python's `s.split()` with no separator argument:
maximal runs of non-whitespace characters, in order.  `acc` holds the current
word, reversed. -/
def splitWsAux : List Char → List Char → List (List Char)
  | [], acc => if acc.isEmpty then [] else [acc.reverse]
  | c :: cs, acc =>
      if isSpaceChar c then
        if acc.isEmpty then splitWsAux cs [] else acc.reverse :: splitWsAux cs []
      else splitWsAux cs (c :: acc)

/-- Python `s.split()`: the list of maximal non-whitespace runs of `l`. -/
def splitWs (l : List Char) : List (List Char) := splitWsAux l []

/-- Python `" ".join(ws)`: the words joined by single space characters. -/
def joinSpace : List (List Char) → List Char
  | [] => []
  | [w] => w
  | w :: v :: ws => w ++ ' ' :: joinSpace (v :: ws)

/-- Embedding of `normalize_string` from `src/assistent_logic.py` on character
lists: `" ".join(s.lower().split())`. -/
def normChars (l : List Char) : List Char :=
  joinSpace (splitWs (l.map lowerChar))

/-- Embedding of `normalize_string` from `src/assistent_logic.py`: empty input
yields `""`, otherwise lowercase, split on whitespace runs, rejoin with single
spaces. -/
def normalize_string (s : String) : String :=
  if s.data.isEmpty then "" else ⟨normChars s.data⟩

/-- Splitting at every whitespace character while keeping the (possibly empty)
segments between consecutive separators.  Used only to state the
specification's reading of the normalizer ("split on any whitespace run"): the
normalizer's words must be exactly the non-empty segments. -/
def splitRuns : List Char → List (List Char)
  | [] => [[]]
  | c :: cs =>
      if isSpaceChar c then [] :: splitRuns cs
      else
        match splitRuns cs with
        | [] => [[c]]
        | w :: ws => (c :: w) :: ws

/-- Specification reading of the normalizer: lowercase, take the maximal
non-whitespace runs (the non-empty segments between whitespace characters),
join them single-space separated. -/
def specNormalize (s : String) : String :=
  ⟨joinSpace ((splitRuns (s.data.map lowerChar)).filter (fun w => !w.isEmpty))⟩

/-- Test that `a` occurs at the head of `b` (auxiliary for substring search). -/
def startsAt : List Char → List Char → Bool
  | [], _ => true
  | _ :: _, [] => false
  | a :: as, b :: bs => a == b && startsAt as bs

/-- Python's substring containment `a in b` for strings, on character lists. -/
def subtext (a : List Char) : List Char → Bool
  | [] => a.isEmpty
  | b :: bs => startsAt a (b :: bs) || subtext a bs

/-- The literal marker text the Locman row filter searches for in every cell
("Куда входит", see `compare_files_1c_locman`). -/
def markerText : List Char := "Куда входит".data

/-- Cell-level marker test: Python `"Куда входит" in str(cell)`. -/
def cellHasMarker (cell : String) : Bool := subtext markerText cell.data

/-- Row-level marker test: some cell of the row contains the marker. -/
def rowHasMarker (row : List String) : Bool := row.any cellHasMarker

/-- Python `str(cell).strip() == ""`: a cell is blank iff every character is
whitespace. -/
def isBlankStr (s : String) : Bool := s.data.all isSpaceChar

/-- Embedding of the Locman entry promotion filter inside
`compare_files_1c_locman`: a data row yields an entry
`(display name, normalized key, source path)` when, checked in source order,
no cell contains the marker, the row has at least 5 columns, column index 4 is
not blank, the row has at least 2 columns (implied), and the normalized name
from column index 1 is non-empty. -/
def locEntryOf (locPath : String) (row : List String) :
    Option (String × List Char × String) :=
  if rowHasMarker row then none
  else if row.length < 5 then none
  else if isBlankStr (row.getD 4 "") then none
  else if row.length < 2 then none
  else if (normChars (row.getD 1 "").data).isEmpty then none
  else some (row.getD 1 "", normChars (row.getD 1 "").data, locPath)

/-- All Locman entries across the sources (each source is a path paired with
its parsed rows), header rows dropped, source order preserved. -/
def locEntries (locSources : List (String × List (List String))) :
    List (String × List Char × String) :=
  locSources.flatMap (fun s => (s.2.drop 1).filterMap (locEntryOf s.1))

/-- Embedding of the per-row 1C filter used by both scan loops of
`compare_files_1c_locman`: rows after the header with at least 2 columns and a
non-empty normalized key, as `(display name, normalized key)` pairs. -/
def onecEntries (data1c : List (List String)) : List (String × List Char) :=
  (data1c.drop 1).filterMap (fun row =>
    if row.length < 2 then none
    else if (normChars (row.getD 1 "").data).isEmpty then none
    else some (row.getD 1 "", normChars (row.getD 1 "").data))

/-- The symmetric containment test of the matcher:
`key_loc in key_1c or key_1c in key_loc`. -/
def matchKey (keyLoc key1c : List Char) : Bool :=
  subtext keyLoc key1c || subtext key1c keyLoc

/-- The `matches` output of `compare_files_1c_locman`: for each Locman entry
(outer loop) and each eligible 1C row (inner loop), the triple
`(name_1c, name_loc, loc_path)` whenever the keys match. -/
def matchesList (data1c : List (List String))
    (locSources : List (String × List (List String))) :
    List (String × String × String) :=
  (locEntries locSources).flatMap (fun e =>
    (onecEntries data1c).filterMap (fun o =>
      if matchKey e.2.1 o.2 then some (o.1, e.1, e.2.2) else none))

/-- The `nomatches` output of `compare_files_1c_locman`: Locman entries whose
key matches no eligible 1C row, as `(name_loc, loc_path)` pairs. -/
def nomatchesList (data1c : List (List String))
    (locSources : List (String × List (List String))) :
    List (String × String) :=
  (locEntries locSources).filterMap (fun e =>
    if (onecEntries data1c).any (fun o => matchKey e.2.1 o.2) then none
    else some (e.1, e.2.2))

/-- The `nomatches_1c` output of `compare_files_1c_locman`: eligible 1C rows
whose key matches no Locman entry, as display names. -/
def nomatches1cList (data1c : List (List String))
    (locSources : List (String × List (List String))) : List String :=
  (onecEntries data1c).filterMap (fun o =>
    if (locEntries locSources).any (fun e => matchKey e.2.1 o.2) then none
    else some o.1)

/-- A stored mapping row of the `mappings` table:
`(name_loc, loc_path, name_1c)`. -/
abbrev DbRow := String × String × String

/-- A mapping identity: `(name_loc, loc_path)`. -/
abbrev MapIdent := String × String

/-- The identity of a stored row. -/
def rowIdent (r : DbRow) : MapIdent := (r.1, r.2.1)

/-- The 1C name of a stored row. -/
def rowName1c (r : DbRow) : String := r.2.2

/-- Embedding of `DELETE FROM mappings WHERE name_loc = ? AND loc_path = ?`. -/
def deleteIdent (db : List DbRow) (k : MapIdent) : List DbRow :=
  db.filter (fun r => decide (rowIdent r ≠ k))

/-- Embedding of the insert loop of `save_mappings`: each name of the value set
is inserted; a duplicate triple raises `IntegrityError`, which is handled by
updating `updated_at` only (invisible here), without incrementing the count. -/
def insertNames (db : List DbRow) (k : MapIdent) : List String → List DbRow × Nat
  | [] => (db, 0)
  | n :: rest =>
      let r : DbRow := (k.1, k.2, n)
      if r ∈ db then insertNames db k rest
      else
        let p := insertNames (db ++ [r]) k rest
        (p.1, p.2 + 1)

/-- Embedding of `save_mappings` from `src/assistent_db.py` (success path): for
each identity in the dictionary, delete its prior rows, then insert the names
of its value set; returns the final table and the number of inserted rows.
The dictionary is modelled as an association list whose value lists stand for
sets (`wfMappings` states the dictionary-of-sets well-formedness). -/
def save_mappings (db : List DbRow) :
    List (MapIdent × List String) → List DbRow × Nat
  | [] => (db, 0)
  | (k, names) :: rest =>
      let p := insertNames (deleteIdent db k) k names
      let q := save_mappings p.1 rest
      (q.1, p.2 + q.2)

/-- Well-formedness of the Python argument `mappings: Dict[..., Set[str]]` in
the association-list model: identities are pairwise distinct (dictionary keys)
and every value list is duplicate-free (a set). -/
abbrev wfMappings (m : List (MapIdent × List String)) : Prop :=
  (m.map (fun e => e.1)).Nodup ∧ ∀ e ∈ m, e.2.Nodup

/-- The identity is present in the store, i.e. `load_mappings` yields a key for
it (it groups the selected rows by `(name_loc, loc_path)`). -/
def identPresent (db : List DbRow) (k : MapIdent) : Bool :=
  db.any (fun r => decide (rowIdent r = k))

/-- The value set `load_mappings` builds for an identity: the 1C names of its
rows (the `ORDER BY updated_at DESC` ordering is erased by set semantics). -/
def loadNames (db : List DbRow) (k : MapIdent) : List String :=
  (db.filter (fun r => decide (rowIdent r = k))).map rowName1c

/-- Dictionary equality between the `load_mappings` result for `db` and a
given mappings dictionary: the same identities are present, and each present
identity carries the same set of 1C names (order-independent). -/
def loadEquals (db : List DbRow) (m : List (MapIdent × List String)) : Prop :=
  (∀ k : MapIdent, identPresent db k = true ↔ ∃ e ∈ m, e.1 = k) ∧
  ∀ e ∈ m, ∀ n : String, n ∈ loadNames db e.1 ↔ n ∈ e.2

/-- Embedding of `delete_mappings` from `src/assistent_db.py`.  The Python
test `if name_loc and loc_path` is truthiness: the identity-restricted branch
runs only when both arguments are present and non-empty; otherwise
`DELETE FROM mappings` removes every row.  Returns the table and `rowcount`. -/
def delete_mappings (db : List DbRow) :
    Option String → Option String → List DbRow × Nat
  | some n, some p =>
      if n ≠ "" ∧ p ≠ "" then
        let kept := db.filter (fun r => decide (¬(r.1 = n ∧ r.2.1 = p)))
        (kept, db.length - kept.length)
      else ([], db.length)
  | _, _ => ([], db.length)

/-- Embedding of `get_all_mappings_count`: `SELECT COUNT(*) FROM mappings`. -/
def get_all_mappings_count (db : List DbRow) : Nat := db.length

/-- A sqlite connection in the transactional model: `committed` is the durable
table state, `pending` the uncommitted working state seen by the cursor. -/
structure SqlConn where
  committed : List DbRow
  pending : List DbRow

/-- Opening a connection: the pending state starts at the durable state. -/
def openConn (db : List DbRow) : SqlConn := ⟨db, db⟩

/-- Commit, i.e. `conn.commit()`: publish the pending state. -/
def connCommit (c : SqlConn) : SqlConn := ⟨c.pending, c.pending⟩

/-- Rollback, i.e. `conn.rollback()`: discard the pending state. -/
def connRollback (c : SqlConn) : SqlConn := ⟨c.committed, c.committed⟩

/-- Closing the connection without a commit: only the committed state survives. -/
def connClose (c : SqlConn) : List DbRow := c.committed

/-- The cursor's `DELETE ... WHERE` acting on the pending state. -/
def connDelete (c : SqlConn) (k : MapIdent) : SqlConn :=
  ⟨c.committed, deleteIdent c.pending k⟩

/-- The cursor's `INSERT` acting on the pending state (caller has checked the
uniqueness constraint). -/
def connInsert (c : SqlConn) (r : DbRow) : SqlConn :=
  ⟨c.committed, c.pending ++ [r]⟩

/-- Failure-aware insert loop of `save_mappings`.  `oracle i = true` means the
`i`-th SQL statement executed in this call raises an unexpected store-level
failure.  A duplicate triple instead raises `IntegrityError`, which the source
handles locally with an `UPDATE` of `updated_at` (itself a statement that may
fail).  On an unexpected failure the loop aborts, returning the connection at
the raise point. -/
def insLoopExc (oracle : Nat → Bool) (k : MapIdent) :
    List String → SqlConn → Nat → Nat → Except SqlConn (SqlConn × Nat × Nat)
  | [], c, i, cnt => .ok (c, i, cnt)
  | n :: rest, c, i, cnt =>
      if oracle i then .error c
      else
        let r : DbRow := (k.1, k.2, n)
        if r ∈ c.pending then
          if oracle (i + 1) then .error c
          else insLoopExc oracle k rest c (i + 2) cnt
        else insLoopExc oracle k rest (connInsert c r) (i + 1) (cnt + 1)

/-- Failure-aware identity loop of `save_mappings`: `DELETE` then the insert
loop, per dictionary entry. -/
def saveLoopExc (oracle : Nat → Bool) :
    List (MapIdent × List String) → SqlConn → Nat → Nat →
      Except SqlConn (SqlConn × Nat × Nat)
  | [], c, i, cnt => .ok (c, i, cnt)
  | (k, names) :: rest, c, i, cnt =>
      if oracle i then .error c
      else
        match insLoopExc oracle k names (connDelete c k) (i + 1) cnt with
        | .error c' => .error c'
        | .ok (c', i', cnt') => saveLoopExc oracle rest c' i' cnt'

/-- Embedding of `save_mappings` with unexpected store-level failures: the
loop runs inside `try`; on any failure the `except` clause rolls the
transaction back and re-raises, the `finally` clause closes the connection.
The final `conn.commit()` may itself fail.  Returns the durable store state
after the call together with the outcome (`Except.error ()` models the
re-raised exception, `Except.ok` the returned count). -/
def save_mappings_exc (db : List DbRow) (m : List (MapIdent × List String))
    (oracle : Nat → Bool) : List DbRow × Except Unit Nat :=
  match saveLoopExc oracle m (openConn db) 0 0 with
  | .ok (c, i, cnt) =>
      if oracle i then (connClose (connRollback c), .error ())
      else (connClose (connCommit c), .ok cnt)
  | .error c => (connClose (connRollback c), .error ())

theorem splitRuns_ne_nil (l : List Char) : splitRuns l ≠ [] := by
  cases l with
  | nil => simp [splitRuns]
  | cons c cs =>
    simp only [splitRuns]
    split
    · simp
    · cases splitRuns cs <;> simp

theorem splitWsAux_eq (l : List Char) :
    ∀ (acc w : List Char) (ws : List (List Char)), splitRuns l = w :: ws →
      splitWsAux l acc = ((acc.reverse ++ w) :: ws).filter (fun x => !x.isEmpty) := by
  induction l with
  | nil =>
    intro acc w ws h
    simp only [splitRuns] at h
    injection h with h1 h2
    subst h1; subst h2
    cases acc <;> simp [splitWsAux, List.filter_cons, List.isEmpty_eq_false]
  | cons c cs ih =>
    intro acc w ws h
    by_cases hsp : isSpaceChar c
    · simp only [splitRuns, hsp, if_true] at h
      injection h with h1 h2
      subst h1; subst h2
      obtain ⟨w', ws', hcs⟩ : ∃ w' ws', splitRuns cs = w' :: ws' := by
        cases hq : splitRuns cs with
        | nil => exact absurd hq (splitRuns_ne_nil cs)
        | cons a b => exact ⟨a, b, rfl⟩
      have haux := ih [] w' ws' hcs
      rw [hcs]
      simp only [splitWsAux, hsp, if_true]
      cases acc with
      | nil => simpa [List.filter] using haux
      | cons a as => simp [haux, List.filter_cons, List.isEmpty_eq_false]
    · have hne : splitRuns (c :: cs) = (c :: (splitRuns cs).headD []) :: (splitRuns cs).tail := by
        simp only [splitRuns, hsp, if_false]
        cases hq : splitRuns cs with
        | nil => exact absurd hq (splitRuns_ne_nil cs)
        | cons a b => simp
      rw [hne] at h
      injection h with h1 h2
      subst h1; subst h2
      obtain ⟨w', ws', hcs⟩ : ∃ w' ws', splitRuns cs = w' :: ws' := by
        cases hq : splitRuns cs with
        | nil => exact absurd hq (splitRuns_ne_nil cs)
        | cons a b => exact ⟨a, b, rfl⟩
      have haux := ih (c :: acc) w' ws' hcs
      simp only [splitWsAux, hsp, if_false]
      rw [haux, hcs]
      simp [List.filter]

theorem splitWs_eq_runs (l : List Char) :
    splitWs l = (splitRuns l).filter (fun w => !w.isEmpty) := by
  obtain ⟨w, ws, h⟩ : ∃ w ws, splitRuns l = w :: ws := by
    cases hq : splitRuns l with
    | nil => exact absurd hq (splitRuns_ne_nil l)
    | cons a b => exact ⟨a, b, rfl⟩
  rw [h]
  simpa using splitWsAux_eq l [] w ws h

/-- C8: `normalize_string` is a pure, deterministic function of its argument:
empty input yields the empty string, and every other string is lowercased with
every maximal whitespace run (including leading and trailing whitespace)
collapsed, so the result is the lowercased words joined by single spaces; in
particular `normalize_string "  A   b\tc "` equals `"a b c"`. -/
theorem normalize_string_correct :
    normalize_string "" = "" ∧
    normalize_string "  A   b\tc " = "a b c" ∧
    ∀ s : String, normalize_string s = specNormalize s := by
  refine ⟨rfl, by decide, ?_⟩
  intro s
  unfold normalize_string specNormalize
  by_cases h : s.data.isEmpty
  · have hd : s.data = [] := List.isEmpty_iff.mp h
    rw [if_pos h, hd]
    rfl
  · rw [if_neg h]
    unfold normChars
    rw [splitWs_eq_runs]

theorem locEntryOf_shape (p : String) (row : List String)
    (e : String × List Char × String) (h : locEntryOf p row = some e) :
    e.1 = row.getD 1 "" ∧ e.2.1 = normChars (row.getD 1 "").data ∧ e.2.2 = p := by
  unfold locEntryOf at h
  split at h
  · exact absurd h (by simp)
  · split at h
    · exact absurd h (by simp)
    · split at h
      · exact absurd h (by simp)
      · split at h
        · exact absurd h (by simp)
        · split at h
          · exact absurd h (by simp)
          · simp only [Option.some.injEq] at h
            subst h
            exact ⟨rfl, rfl, rfl⟩

theorem mem_locEntries_shape (ls : List (String × List (List String)))
    (e : String × List Char × String) (h : e ∈ locEntries ls) :
    e.2.1 = normChars e.1.data := by
  unfold locEntries at h
  obtain ⟨s, _, h2⟩ := List.mem_flatMap.mp h
  obtain ⟨row, _, h4⟩ := List.mem_filterMap.mp h2
  obtain ⟨h5, h6, _⟩ := locEntryOf_shape s.1 row e h4
  rw [h6, h5]

theorem onecEntries_shape (d : List (List String)) (o : String × List Char)
    (h : o ∈ onecEntries d) : o.2 = normChars o.1.data := by
  unfold onecEntries at h
  obtain ⟨row, _, h2⟩ := List.mem_filterMap.mp h
  split at h2
  · exact absurd h2 (by simp)
  · split at h2
    · exact absurd h2 (by simp)
    · simp only [Option.some.injEq] at h2
      subst h2
      rfl

theorem isEmpty_false_of_ne_nil {l : List Char} (h : l ≠ []) :
    ¬ (l.isEmpty = true) := by
  cases l with
  | nil => exact absurd rfl h
  | cons a as => simp [List.isEmpty]

theorem mem_onecEntries (d : List (List String)) (row : List String)
    (hrow : row ∈ d.drop 1) (hlen : 2 ≤ row.length)
    (hkey : normChars (row.getD 1 "").data ≠ []) :
    (row.getD 1 "", normChars (row.getD 1 "").data) ∈ onecEntries d := by
  unfold onecEntries
  apply List.mem_filterMap.mpr
  refine ⟨row, hrow, ?_⟩
  have h1 : ¬ row.length < 2 := Nat.not_lt.mpr hlen
  rw [if_neg h1, if_neg (isEmpty_false_of_ne_nil hkey)]

theorem mem_matchesList (d : List (List String))
    (ls : List (String × List (List String))) (t : String × String × String) :
    t ∈ matchesList d ls ↔
      ∃ e ∈ locEntries ls, ∃ o ∈ onecEntries d,
        matchKey e.2.1 o.2 = true ∧ t = (o.1, e.1, e.2.2) := by
  unfold matchesList
  simp only [List.mem_flatMap, List.mem_filterMap]
  constructor
  · rintro ⟨e, he, o, ho, hif⟩
    split at hif
    · injection hif with h'
      exact ⟨e, he, o, ho, by assumption, h'.symm⟩
    · exact absurd hif (by simp)
  · rintro ⟨e, he, o, ho, hm, ht⟩
    exact ⟨e, he, o, ho, by rw [hm, ht]; simp⟩

/-- C1: for every 1C data row (row 2 onward, at least 2 columns, non-empty
normalized key) and every Locman entry, a MatchPair
`(1C display name, Locman display name, Locman source path)` is recorded in
the matches output if and only if the Locman key is a substring of the 1C key
or the 1C key is a substring of the Locman key; the match condition is
symmetric under swapping the two keys. -/
theorem matcher_containment (data1c : List (List String))
    (locSources : List (String × List (List String)))
    (row : List String) (nl : String) (kl : List Char) (lp : String)
    (hrow : row ∈ data1c.drop 1) (hlen : 2 ≤ row.length)
    (hkey : normChars (row.getD 1 "").data ≠ [])
    (hent : (nl, kl, lp) ∈ locEntries locSources) :
    (((row.getD 1 "", nl, lp) ∈ matchesList data1c locSources) ↔
       (subtext kl (normChars (row.getD 1 "").data) = true ∨
        subtext (normChars (row.getD 1 "").data) kl = true)) ∧
    matchKey kl (normChars (row.getD 1 "").data) =
      matchKey (normChars (row.getD 1 "").data) kl := by
  have hkl : kl = normChars nl.data := mem_locEntries_shape locSources (nl, kl, lp) hent
  constructor
  · constructor
    · intro hmem
      obtain ⟨e, he, o, ho, hm, ht⟩ := (mem_matchesList data1c locSources _).mp hmem
      obtain ⟨h1, h2, h3⟩ : row.getD 1 "" = o.1 ∧ nl = e.1 ∧ lp = e.2.2 := by
        have := Prod.mk.injEq .. ▸ ht
        simp only [Prod.mk.injEq] at ht
        exact ⟨ht.1, ht.2.1, ht.2.2⟩
      have ho2 : o.2 = normChars (row.getD 1 "").data := by
        rw [onecEntries_shape data1c o ho, ← h1]
      have he2 : e.2.1 = kl := by
        rw [mem_locEntries_shape locSources e he, ← h2, ← hkl]
      rw [ho2, he2] at hm
      simpa [matchKey, Bool.or_eq_true] using hm
    · intro hor
      apply (mem_matchesList data1c locSources _).mpr
      refine ⟨(nl, kl, lp), hent, (row.getD 1 "", normChars (row.getD 1 "").data),
        mem_onecEntries data1c row hrow hlen hkey, ?_, rfl⟩
      simpa [matchKey, Bool.or_eq_true] using hor
  · simp [matchKey, Bool.or_comm]

/-- Witness for C1 at the spec's own example: 1C row `["x", "Bolt M6"]` and the
Locman entry `("bolt", key, "p")` from a row with non-blank fifth column. -/
theorem matcher_containment_witness :
    ((("Bolt M6", "bolt", "p") ∈
        matchesList [["h", "h"], ["x", "Bolt M6"]]
          [("p", [["a", "b", "c", "d", "e"], ["x", "bolt", "", "", "y"]])]) ↔
      (subtext "bolt".data (normChars "Bolt M6".data) = true ∨
       subtext (normChars "Bolt M6".data) "bolt".data = true)) ∧
    matchKey "bolt".data (normChars "Bolt M6".data) =
      matchKey (normChars "Bolt M6".data) "bolt".data :=
  matcher_containment [["h", "h"], ["x", "Bolt M6"]]
    [("p", [["a", "b", "c", "d", "e"], ["x", "bolt", "", "", "y"]])]
    ["x", "Bolt M6"] "bolt" "bolt".data "p"
    (by decide) (by decide) (by decide) (by decide)

/-- C2: a Locman row after the header row is promoted to an entry if and only
if it has at least 5 columns, its cell at column index 4 is not blank, no cell
contains the text "Куда входит", and the normalized display name from column
index 1 is non-empty; and the entries of a source are exactly the promoted
rows after the header. -/
theorem locman_row_promotion (locPath : String) (rows : List (List String))
    (row : List String) :
    ((locEntryOf locPath row).isSome ↔
      (5 ≤ row.length ∧ isBlankStr (row.getD 4 "") = false ∧
       (∀ cell ∈ row, cellHasMarker cell = false) ∧
       normChars (row.getD 1 "").data ≠ [])) ∧
    locEntries [(locPath, rows)] = (rows.drop 1).filterMap (locEntryOf locPath) := by
  constructor
  · unfold locEntryOf
    constructor
    · intro h
      by_cases h1 : rowHasMarker row
      · rw [if_pos h1] at h
        exact absurd h (by simp)
      · rw [if_neg h1] at h
        by_cases h2 : row.length < 5
        · rw [if_pos h2] at h
          exact absurd h (by simp)
        · rw [if_neg h2] at h
          by_cases h3 : isBlankStr (row.getD 4 "")
          · rw [if_pos h3] at h
            exact absurd h (by simp)
          · rw [if_neg h3] at h
            by_cases h4 : row.length < 2
            · rw [if_pos h4] at h
              exact absurd h (by simp)
            · rw [if_neg h4] at h
              by_cases h5 : (normChars (row.getD 1 "").data).isEmpty
              · rw [if_pos h5] at h
                exact absurd h (by simp)
              · refine ⟨Nat.not_lt.mp h2, Bool.not_eq_true _ ▸ h3, ?_, ?_⟩
                · intro cell hc
                  have := List.any_eq_false.mp (Bool.not_eq_true _ ▸ h1 : rowHasMarker row = false)
                  simpa using this cell hc
                · intro hnil
                  exact h5 (by rw [hnil]; rfl)
    · rintro ⟨h1, h2, h3, h4⟩
      have hm : rowHasMarker row = false := List.any_eq_false.mpr (by simpa using h3)
      rw [if_neg (by rw [hm]; exact Bool.false_ne_true),
          if_neg (Nat.not_lt.mpr h1),
          if_neg (by rw [h2]; exact Bool.false_ne_true),
          if_neg (Nat.not_lt.mpr (le_trans (by norm_num) h1)),
          if_neg (isEmpty_false_of_ne_nil h4)]
      simp
  · simp [locEntries]

theorem count_nomatch1c_aux (ls : List (String × List (List String))) (n : String) :
    ∀ entries : List (String × List Char),
      (∀ o ∈ entries, o.2 = normChars o.1.data) →
      (entries.filterMap (fun o =>
          if (locEntries ls).any (fun e => matchKey e.2.1 o.2) then none
          else some o.1)).count n =
        (if (locEntries ls).any (fun e => matchKey e.2.1 (normChars n.data)) = true
         then 0
         else (entries.map (fun o => o.1)).count n) := by
  intro entries
  induction entries with
  | nil => intro _; cases (locEntries ls).any (fun e => matchKey e.2.1 (normChars n.data)) <;> simp
  | cons o rest ih =>
    intro hk
    have ho : o.2 = normChars o.1.data := hk o (by simp)
    have ihr := ih (fun x hx => hk x (by simp [hx]))
    by_cases h1 : o.1 = n
    · subst h1
      cases hc : (locEntries ls).any (fun e => matchKey e.2.1 (normChars o.1.data)) with
      | true =>
        rw [if_pos hc] at ihr
        rw [List.filterMap_cons_none (by rw [ho]; exact if_pos hc), ihr]
        rfl
      | false =>
        have hc' : ¬ ((locEntries ls).any
            (fun e => matchKey e.2.1 (normChars o.1.data)) = true) := by
          rw [hc]; exact Bool.false_ne_true
        rw [if_neg hc'] at ihr
        rw [List.filterMap_cons_some (by rw [ho]; exact if_neg hc'), List.map_cons,
          List.count_cons, List.count_cons, ihr]
        rfl
    · cases hc : (locEntries ls).any (fun e => matchKey e.2.1 (normChars n.data)) with
      | true =>
        rw [if_pos hc] at ihr
        cases hco : (locEntries ls).any (fun e => matchKey e.2.1 (normChars o.1.data)) with
        | true =>
          rw [List.filterMap_cons_none (by rw [ho]; exact if_pos hco), ihr]
          rfl
        | false =>
          have hco' : ¬ ((locEntries ls).any
              (fun e => matchKey e.2.1 (normChars o.1.data)) = true) := by
            rw [hco]; exact Bool.false_ne_true
          rw [List.filterMap_cons_some (by rw [ho]; exact if_neg hco'),
            List.count_cons, ihr]
          simp [h1]
      | false =>
        have hc' : ¬ ((locEntries ls).any
            (fun e => matchKey e.2.1 (normChars n.data)) = true) := by
          rw [hc]; exact Bool.false_ne_true
        rw [if_neg hc'] at ihr
        cases hco : (locEntries ls).any (fun e => matchKey e.2.1 (normChars o.1.data)) with
        | true =>
          rw [List.filterMap_cons_none (by rw [ho]; exact if_pos hco), ihr,
            List.map_cons, List.count_cons]
          simp [h1]
        | false =>
          have hco' : ¬ ((locEntries ls).any
              (fun e => matchKey e.2.1 (normChars o.1.data)) = true) := by
            rw [hco]; exact Bool.false_ne_true
          rw [List.filterMap_cons_some (by rw [ho]; exact if_neg hco'),
            List.count_cons, ihr, List.map_cons, List.count_cons]
          rfl

theorem mem_matches_fst (d : List (List String))
    (ls : List (String × List (List String))) (n : String) :
    n ∈ (matchesList d ls).map (fun t => t.1) ↔
      ((∃ o ∈ onecEntries d, o.1 = n) ∧
       (locEntries ls).any (fun e => matchKey e.2.1 (normChars n.data)) = true) := by
  rw [List.mem_map]
  constructor
  · rintro ⟨t, ht, rfl⟩
    obtain ⟨e, he, o, ho, hm, rfl⟩ := (mem_matchesList d ls t).mp ht
    refine ⟨⟨o, ho, rfl⟩, List.any_eq_true.mpr ⟨e, he, ?_⟩⟩
    rw [← onecEntries_shape d o ho]
    exact hm
  · rintro ⟨⟨o, ho, rfl⟩, hany⟩
    obtain ⟨e, he, hm⟩ := List.any_eq_true.mp hany
    refine ⟨(o.1, e.1, e.2.2), (mem_matchesList d ls _).mpr ⟨e, he, o, ho, ?_, rfl⟩, rfl⟩
    rw [onecEntries_shape d o ho]
    exact hm

theorem count_nomatchLoc_aux (d : List (List String)) (nl lp : String) :
    ∀ entries : List (String × List Char × String),
      (∀ e ∈ entries, e.2.1 = normChars e.1.data) →
      (entries.filterMap (fun e =>
          if (onecEntries d).any (fun o => matchKey e.2.1 o.2) then none
          else some (e.1, e.2.2))).count (nl, lp) =
        (if (onecEntries d).any (fun o => matchKey (normChars nl.data) o.2) = true
         then 0
         else (entries.map (fun e => (e.1, e.2.2))).count (nl, lp)) := by
  intro entries
  induction entries with
  | nil =>
    intro _
    cases (onecEntries d).any (fun o => matchKey (normChars nl.data) o.2) <;> simp
  | cons e rest ih =>
    intro hk
    have he : e.2.1 = normChars e.1.data := hk e (by simp)
    have ihr := ih (fun x hx => hk x (by simp [hx]))
    by_cases h1 : e.1 = nl
    · have hek : e.2.1 = normChars nl.data := by rw [he, h1]
      cases hc : (onecEntries d).any (fun o => matchKey (normChars nl.data) o.2) with
      | true =>
        rw [if_pos hc] at ihr
        rw [List.filterMap_cons_none (by rw [hek]; exact if_pos hc), ihr]
        rfl
      | false =>
        have hc' : ¬ ((onecEntries d).any
            (fun o => matchKey (normChars nl.data) o.2) = true) := by
          rw [hc]; exact Bool.false_ne_true
        rw [if_neg hc'] at ihr
        rw [List.filterMap_cons_some (by rw [hek]; exact if_neg hc'), List.map_cons,
          List.count_cons, List.count_cons, ihr]
        rfl
    · cases hc : (onecEntries d).any (fun o => matchKey (normChars nl.data) o.2) with
      | true =>
        rw [if_pos hc] at ihr
        cases hco : (onecEntries d).any (fun o => matchKey e.2.1 o.2) with
        | true =>
          rw [List.filterMap_cons_none (by exact if_pos hco), ihr]
          rfl
        | false =>
          have hco' : ¬ ((onecEntries d).any
              (fun o => matchKey e.2.1 o.2) = true) := by
            rw [hco]; exact Bool.false_ne_true
          rw [List.filterMap_cons_some (by exact if_neg hco'), List.count_cons, ihr]
          simp [h1]
      | false =>
        have hc' : ¬ ((onecEntries d).any
            (fun o => matchKey (normChars nl.data) o.2) = true) := by
          rw [hc]; exact Bool.false_ne_true
        rw [if_neg hc'] at ihr
        cases hco : (onecEntries d).any (fun o => matchKey e.2.1 o.2) with
        | true =>
          rw [List.filterMap_cons_none (by exact if_pos hco), ihr,
            List.map_cons, List.count_cons]
          simp [h1]
        | false =>
          have hco' : ¬ ((onecEntries d).any
              (fun o => matchKey e.2.1 o.2) = true) := by
            rw [hco]; exact Bool.false_ne_true
          rw [List.filterMap_cons_some (by exact if_neg hco'),
            List.count_cons, ihr, List.map_cons, List.count_cons]
          rfl

theorem mem_matches_locpair (d : List (List String))
    (ls : List (String × List (List String))) (nl lp : String) :
    (nl, lp) ∈ (matchesList d ls).map (fun t => (t.2.1, t.2.2)) ↔
      ((∃ e ∈ locEntries ls, e.1 = nl ∧ e.2.2 = lp) ∧
       (onecEntries d).any (fun o => matchKey (normChars nl.data) o.2) = true) := by
  rw [List.mem_map]
  constructor
  · rintro ⟨t, ht, hteq⟩
    obtain ⟨e, he, o, ho, hm, rfl⟩ := (mem_matchesList d ls t).mp ht
    simp only [Prod.mk.injEq] at hteq
    refine ⟨⟨e, he, hteq.1, hteq.2⟩, List.any_eq_true.mpr ⟨o, ho, ?_⟩⟩
    rw [← hteq.1, ← mem_locEntries_shape ls e he]
    exact hm
  · rintro ⟨⟨e, he, h1, h2⟩, hany⟩
    obtain ⟨o, ho, hm⟩ := List.any_eq_true.mp hany
    refine ⟨(o.1, e.1, e.2.2), (mem_matchesList d ls _).mpr ⟨e, he, o, ho, ?_, rfl⟩, ?_⟩
    · rw [mem_locEntries_shape ls e he, h1]
      exact hm
    · simp [h1, h2]

/-- C3: the unmatched lists are complements of the match set, with multiplicity:
a 1C display name occurs in the unmatched-1C list exactly as often as it occurs
among the eligible 1C rows when it is the 1C name of no MatchPair, and zero
times otherwise; analogously a `(Locman name, source path)` pair occurs in the
unmatched-Locman list exactly as often as it occurs among the Locman entries
when no MatchPair carries it, and zero times otherwise. -/
theorem unmatched_complements (data1c : List (List String))
    (locSources : List (String × List (List String))) (n nl lp : String) :
    (nomatches1cList data1c locSources).count n =
      (if n ∈ (matchesList data1c locSources).map (fun t => t.1) then 0
       else ((onecEntries data1c).map (fun o => o.1)).count n) ∧
    (nomatchesList data1c locSources).count (nl, lp) =
      (if (nl, lp) ∈ (matchesList data1c locSources).map (fun t => (t.2.1, t.2.2)) then 0
       else ((locEntries locSources).map (fun e => (e.1, e.2.2))).count (nl, lp)) := by
  constructor
  · have haux := count_nomatch1c_aux locSources n (onecEntries data1c)
      (fun o ho => onecEntries_shape data1c o ho)
    unfold nomatches1cList
    rw [haux]
    by_cases hc : (locEntries locSources).any
        (fun e => matchKey e.2.1 (normChars n.data)) = true
    · rw [if_pos hc]
      by_cases hocc : ∃ o ∈ onecEntries data1c, o.1 = n
      · rw [if_pos ((mem_matches_fst data1c locSources n).mpr ⟨hocc, hc⟩)]
      · rw [if_neg (fun hmem =>
          hocc ((mem_matches_fst data1c locSources n).mp hmem).1)]
        symm
        rw [List.count_eq_zero]
        intro hmem
        obtain ⟨o, ho, heq⟩ := List.mem_map.mp hmem
        exact hocc ⟨o, ho, heq⟩
    · rw [if_neg hc, if_neg (fun hmem =>
        hc ((mem_matches_fst data1c locSources n).mp hmem).2)]
  · have haux := count_nomatchLoc_aux data1c nl lp (locEntries locSources)
      (fun e he => mem_locEntries_shape locSources e he)
    unfold nomatchesList
    rw [haux]
    by_cases hc : (onecEntries data1c).any
        (fun o => matchKey (normChars nl.data) o.2) = true
    · rw [if_pos hc]
      by_cases hocc : ∃ e ∈ locEntries locSources, e.1 = nl ∧ e.2.2 = lp
      · rw [if_pos ((mem_matches_locpair data1c locSources nl lp).mpr ⟨hocc, hc⟩)]
      · rw [if_neg (fun hmem =>
          hocc ((mem_matches_locpair data1c locSources nl lp).mp hmem).1)]
        symm
        rw [List.count_eq_zero]
        intro hmem
        obtain ⟨e, he, heq⟩ := List.mem_map.mp hmem
        refine hocc ⟨e, he, ?_, ?_⟩
        · exact congrArg Prod.fst heq
        · exact congrArg Prod.snd heq
    · rw [if_neg hc, if_neg (fun hmem =>
        hc ((mem_matches_locpair data1c locSources nl lp).mp hmem).2)]

theorem insertNames_filter (k : MapIdent) (q : DbRow → Bool)
    (hq : ∀ n : String, q (k.1, k.2, n) = false) :
    ∀ (names : List String) (db : List DbRow),
      (insertNames db k names).1.filter q = db.filter q := by
  intro names
  induction names with
  | nil => intro db; rfl
  | cons n rest ih =>
    intro db
    simp only [insertNames]
    split
    · exact ih db
    · show ((insertNames (db ++ [(k.1, k.2, n)]) k rest).1.filter q) = db.filter q
      rw [ih (db ++ [(k.1, k.2, n)]), List.filter_append]
      simp [List.filter_cons, hq n]

theorem insertNames_exact (k : MapIdent) :
    ∀ (names : List String) (db : List DbRow), names.Nodup →
      (∀ n ∈ names, (k.1, k.2, n) ∉ db) →
      insertNames db k names =
        (db ++ names.map (fun n => (k.1, k.2, n)), names.length) := by
  intro names
  induction names with
  | nil => intro db _ _; simp [insertNames]
  | cons n rest ih =>
    intro db hnd hnin
    have hnd' := List.nodup_cons.mp hnd
    simp only [insertNames]
    rw [if_neg (hnin n (by simp))]
    have hrest := ih (db ++ [(k.1, k.2, n)]) hnd'.2 (by
      intro a ha hmem
      rcases List.mem_append.mp hmem with h | h
      · exact hnin a (by simp [ha]) h
      · have han : a = n := by
          have h' := List.mem_singleton.mp h
          simpa [Prod.mk.injEq] using h'
        exact hnd'.1 (han ▸ ha))
    rw [hrest]
    simp [List.append_assoc]

theorem save_mappings_filter_other (k' : MapIdent) :
    ∀ (m : List (MapIdent × List String)) (db : List DbRow),
      (∀ e ∈ m, e.1 ≠ k') →
      (save_mappings db m).1.filter (fun r => decide (rowIdent r = k')) =
        db.filter (fun r => decide (rowIdent r = k')) := by
  intro m
  induction m with
  | nil => intro db _; rfl
  | cons em rest ih =>
    intro db hk
    obtain ⟨k, names⟩ := em
    have hkk' : k ≠ k' := hk (k, names) (by simp)
    simp only [save_mappings]
    rw [ih _ (fun e he => hk e (by simp [he]))]
    rw [insertNames_filter k _ (fun n => by simp [rowIdent, hkk'])]
    unfold deleteIdent
    rw [List.filter_filter]
    apply List.filter_congr
    intro r _
    by_cases hr : rowIdent r = k'
    · simp [hr]
      exact Ne.symm hkk'
    · simp [hr]

theorem save_mappings_filter_key :
    ∀ (m : List (MapIdent × List String)) (db : List DbRow)
      (k : MapIdent) (names : List String),
      wfMappings m → (k, names) ∈ m →
      (save_mappings db m).1.filter (fun r => decide (rowIdent r = k)) =
        names.map (fun n => (k.1, k.2, n)) := by
  intro m
  induction m with
  | nil => intro db k names _ h; cases h
  | cons em rest ih =>
    intro db k names hwf hmem
    obtain ⟨k0, names0⟩ := em
    have hkeys : k0 ∉ rest.map (fun e => e.1) := (List.nodup_cons.mp hwf.1).1
    rcases List.mem_cons.mp hmem with heq | hmemr
    · injection heq with h1 h2
      subst h1; subst h2
      simp only [save_mappings]
      rw [save_mappings_filter_other k rest _ (by
        intro e he hek
        exact hkeys (hek ▸ List.mem_map_of_mem (fun e => e.1) he))]
      have hnod : names.Nodup := hwf.2 (k, names) (by simp)
      rw [insertNames_exact k names (deleteIdent db k) hnod (by
        intro n _ hmem'
        have := List.mem_filter.mp hmem'
        have h2 := of_decide_eq_true this.2
        exact h2 (by simp [rowIdent]))]
      show ((deleteIdent db k ++ names.map (fun n => (k.1, k.2, n))).filter
        (fun r => decide (rowIdent r = k))) = names.map (fun n => (k.1, k.2, n))
      rw [List.filter_append]
      have hdel : (deleteIdent db k).filter (fun r => decide (rowIdent r = k)) = [] := by
        rw [List.filter_eq_nil_iff]
        intro r hr hdec
        have hr2 := of_decide_eq_true (List.mem_filter.mp hr).2
        exact hr2 (of_decide_eq_true hdec)
      have hmap : (names.map (fun n => (k.1, k.2, n))).filter
          (fun r => decide (rowIdent r = k)) = names.map (fun n => (k.1, k.2, n)) := by
        apply List.filter_eq_self.mpr
        intro r hr
        obtain ⟨n, _, rfl⟩ := List.mem_map.mp hr
        simp [rowIdent]
      rw [hdel, hmap, List.nil_append]
    · have hwfr : wfMappings rest := ⟨(List.nodup_cons.mp hwf.1).2,
        fun e he => hwf.2 e (by simp [he])⟩
      simp only [save_mappings]
      exact ih _ k names hwfr hmemr

theorem save_mappings_count :
    ∀ (m : List (MapIdent × List String)) (db : List DbRow),
      wfMappings m →
      (save_mappings db m).2 = (m.map (fun e => e.2.length)).sum := by
  intro m
  induction m with
  | nil => intro db _; rfl
  | cons em rest ih =>
    intro db hwf
    obtain ⟨k0, names0⟩ := em
    have hnod : names0.Nodup := hwf.2 (k0, names0) (by simp)
    have hwfr : wfMappings rest := ⟨(List.nodup_cons.mp hwf.1).2,
      fun e he => hwf.2 e (by simp [he])⟩
    simp only [save_mappings]
    rw [insertNames_exact k0 names0 (deleteIdent db k0) hnod (by
      intro n _ hmem'
      have := List.mem_filter.mp hmem'
      have h2 := of_decide_eq_true this.2
      exact h2 (by simp [rowIdent]))]
    rw [ih _ hwfr]
    simp

theorem identPresent_iff_filter (db : List DbRow) (k : MapIdent) :
    identPresent db k = true ↔
      db.filter (fun r => decide (rowIdent r = k)) ≠ [] := by
  unfold identPresent
  rw [List.any_eq_true]
  constructor
  · rintro ⟨r, hr, hd⟩
    intro hnil
    have hm : r ∈ db.filter (fun r => decide (rowIdent r = k)) :=
      List.mem_filter.mpr ⟨hr, hd⟩
    rw [hnil] at hm
    cases hm
  · intro hne
    obtain ⟨r, hr⟩ := List.exists_mem_of_ne_nil _ hne
    have hm := List.mem_filter.mp hr
    exact ⟨r, hm.1, hm.2⟩

/-- Counterexample to C4 as stated: for the mappings dictionary sending
identity `("a", "p")` to the empty set, saving on a fresh store and loading
returns the empty dictionary, which is not equal to the input dictionary. -/
theorem save_load_roundtrip_cex :
    wfMappings [(("a", "p"), ([] : List String))] ∧
    ¬ loadEquals (save_mappings [] [(("a", "p"), ([] : List String))]).1
        [(("a", "p"), ([] : List String))] := by
  constructor
  · exact ⟨by simp, by intro e he; simp at he; subst he; exact List.nodup_nil⟩
  · intro h
    have h1 := (h.1 ("a", "p")).mpr ⟨(("a", "p"), []), by simp, rfl⟩
    exact absurd h1 (by decide)

/-- C4 (amended): for every mappings dictionary whose value sets are all
non-empty, saving on a fresh (empty) store and then loading returns a
dictionary equal to the input, where equality is per-identity set equality
(identities mapped to the empty set would instead be absent from the load). -/
theorem save_load_roundtrip (m : List (MapIdent × List String))
    (hwf : wfMappings m) (hne : ∀ e ∈ m, e.2 ≠ []) :
    loadEquals (save_mappings [] m).1 m := by
  constructor
  · intro k
    constructor
    · intro hp
      by_contra hnk
      push_neg at hnk
      have hnone : ∀ e ∈ m, e.1 ≠ k := by
        intro e he
        exact fun hek => (hnk e he) hek
      have hflt := save_mappings_filter_other k m [] hnone
      rw [identPresent_iff_filter] at hp
      rw [hflt] at hp
      exact hp rfl
    · rintro ⟨e, he, rfl⟩
      have hflt := save_mappings_filter_key m [] e.1 e.2 hwf (Prod.mk.eta ▸ he)
      rw [identPresent_iff_filter, hflt]
      intro hnil
      exact hne e he (List.map_eq_nil_iff.mp hnil)
  · intro e he n
    have hflt := save_mappings_filter_key m [] e.1 e.2 hwf (Prod.mk.eta ▸ he)
    unfold loadNames
    rw [hflt]
    constructor
    · intro hn
      obtain ⟨r, hr, hrn⟩ := List.mem_map.mp hn
      obtain ⟨a, ha, rfl⟩ := List.mem_map.mp hr
      rw [← hrn]
      exact ha
    · intro hn
      exact List.mem_map.mpr ⟨(e.1.1, e.1.2, n),
        List.mem_map.mpr ⟨n, hn, rfl⟩, rfl⟩

/-- Witness for C4's amended round-trip at a concrete two-identity dictionary
with non-empty value sets. -/
theorem save_load_roundtrip_witness :
    wfMappings [(("a", "p"), ["x", "y"]), (("b", "q"), ["z"])] ∧
    (∀ e ∈ [(("a", "p"), ["x", "y"]), (("b", "q"), ["z"])], e.2 ≠ []) ∧
    loadEquals
      (save_mappings [] [(("a", "p"), ["x", "y"]), (("b", "q"), ["z"])]).1
      [(("a", "p"), ["x", "y"]), (("b", "q"), ["z"])] :=
  ⟨by decide, by decide,
    save_load_roundtrip [(("a", "p"), ["x", "y"]), (("b", "q"), ["z"])]
      (by decide) (by decide)⟩

/-- C5: after saving value set S1 and then value set S2 for the same identity,
the store holds exactly S2's rows for that identity (no residual S1-only
names), and the rows of every other identity are unchanged. -/
theorem resave_replaces (db : List DbRow) (k : MapIdent) (S1 S2 : List String)
    (h2 : S2.Nodup) :
    ((save_mappings (save_mappings db [(k, S1)]).1 [(k, S2)]).1.filter
        (fun r => decide (rowIdent r = k)) = S2.map (fun n => (k.1, k.2, n))) ∧
    (∀ n : String,
        (k.1, k.2, n) ∈ (save_mappings (save_mappings db [(k, S1)]).1 [(k, S2)]).1 →
        n ∈ S2) ∧
    (∀ k' : MapIdent, k' ≠ k →
        (save_mappings (save_mappings db [(k, S1)]).1 [(k, S2)]).1.filter
            (fun r => decide (rowIdent r = k')) =
          db.filter (fun r => decide (rowIdent r = k'))) := by
  have hwf2 : wfMappings [(k, S2)] :=
    ⟨by simp, by intro e he; simp at he; subst he; exact h2⟩
  have hkey := save_mappings_filter_key [(k, S2)] (save_mappings db [(k, S1)]).1
    k S2 hwf2 (by simp)
  refine ⟨hkey, ?_, ?_⟩
  · intro n hmem
    have hmf : (k.1, k.2, n) ∈
        (save_mappings (save_mappings db [(k, S1)]).1 [(k, S2)]).1.filter
          (fun r => decide (rowIdent r = k)) :=
      List.mem_filter.mpr ⟨hmem, by simp [rowIdent]⟩
    rw [hkey] at hmf
    obtain ⟨a, ha, haeq⟩ := List.mem_map.mp hmf
    have han : a = n := by simpa [Prod.mk.injEq] using haeq
    exact han ▸ ha
  · intro k' hk'
    rw [save_mappings_filter_other k' [(k, S2)] _
        (by intro e he; simp at he; subst he; exact Ne.symm hk'),
      save_mappings_filter_other k' [(k, S1)] _
        (by intro e he; simp at he; subst he; exact Ne.symm hk')]

/-- Witness for C5: saving `{"x","y"}` then `{"y","w"}` for identity
`("a","p")` over a store holding an unrelated row. -/
theorem resave_replaces_witness :
    ((save_mappings (save_mappings [("b", "q", "z")] [(("a", "p"), ["x", "y"])]).1
        [(("a", "p"), ["y", "w"])]).1.filter
        (fun r => decide (rowIdent r = ("a", "p"))) =
      ["y", "w"].map (fun n => ("a", "p", n))) ∧
    (∀ n : String,
        ("a", "p", n) ∈ (save_mappings
          (save_mappings [("b", "q", "z")] [(("a", "p"), ["x", "y"])]).1
          [(("a", "p"), ["y", "w"])]).1 →
        n ∈ ["y", "w"]) ∧
    (∀ k' : MapIdent, k' ≠ ("a", "p") →
        (save_mappings (save_mappings [("b", "q", "z")] [(("a", "p"), ["x", "y"])]).1
            [(("a", "p"), ["y", "w"])]).1.filter
            (fun r => decide (rowIdent r = k')) =
          [("b", "q", "z")].filter (fun r => decide (rowIdent r = k'))) :=
  resave_replaces [("b", "q", "z")] ("a", "p") ["x", "y"] ["y", "w"] (by decide)

theorem sum_filter_nonempty (m : List (MapIdent × List String)) :
    ((m.filter (fun e => !e.2.isEmpty)).map (fun e => e.2.length)).sum =
      (m.map (fun e => e.2.length)).sum := by
  induction m with
  | nil => rfl
  | cons e rest ih =>
    cases he : e.2 with
    | nil => simp [List.filter_cons, he, ih]
    | cons a as => simp [List.filter_cons, he, ih]

/-- C9: saving an identity mapped to the empty set deletes its prior rows and
inserts none, leaving the identity absent from any subsequent load; the load
result never maps an identity to an empty set; and `save_mappings` returns the
sum of the sizes of the non-empty value sets. -/
theorem save_empty_set_absent (db : List DbRow)
    (m : List (MapIdent × List String)) (k : MapIdent) (hwf : wfMappings m) :
    ((k, ([] : List String)) ∈ m →
        identPresent (save_mappings db m).1 k = false) ∧
    (save_mappings db m).2 =
      ((m.filter (fun e => !e.2.isEmpty)).map (fun e => e.2.length)).sum ∧
    ∀ (db' : List DbRow) (k' : MapIdent),
      identPresent db' k' = true → loadNames db' k' ≠ [] := by
  refine ⟨?_, ?_, ?_⟩
  · intro hmem
    have hflt := save_mappings_filter_key m db k [] hwf hmem
    cases hp : identPresent (save_mappings db m).1 k with
    | false => rfl
    | true =>
      rw [identPresent_iff_filter] at hp
      rw [hflt] at hp
      exact absurd rfl hp
  · rw [sum_filter_nonempty, save_mappings_count m db hwf]
  · intro db' k' hp
    rw [identPresent_iff_filter] at hp
    unfold loadNames
    intro hnil
    exact hp (List.map_eq_nil_iff.mp hnil)

/-- Witness for C9: a dictionary mapping `("a","p")` to the empty set and
`("b","q")` to `{"z"}`, saved over a store holding a prior `("a","p")` row. -/
theorem save_empty_set_absent_witness :
    ((("a", "p"), ([] : List String)) ∈
        [(("a", "p"), ([] : List String)), (("b", "q"), ["z"])] →
      identPresent (save_mappings [("a", "p", "x")]
        [(("a", "p"), ([] : List String)), (("b", "q"), ["z"])]).1 ("a", "p") = false) ∧
    (save_mappings [("a", "p", "x")]
        [(("a", "p"), ([] : List String)), (("b", "q"), ["z"])]).2 =
      (([(("a", "p"), ([] : List String)), (("b", "q"), ["z"])].filter
          (fun e => !e.2.isEmpty)).map (fun e => e.2.length)).sum ∧
    ∀ (db' : List DbRow) (k' : MapIdent),
      identPresent db' k' = true → loadNames db' k' ≠ [] :=
  save_empty_set_absent [("a", "p", "x")]
    [(("a", "p"), ([] : List String)), (("b", "q"), ["z"])] ("a", "p") (by decide)

theorem length_filter_split (pq : DbRow → Bool) :
    ∀ db : List DbRow,
      (db.filter pq).length + (db.filter (fun r => !pq r)).length = db.length := by
  intro db
  induction db with
  | nil => rfl
  | cons r rest ih =>
    cases hr : pq r <;>
      simp [List.filter_cons, hr, ← ih, Nat.add_assoc, Nat.add_comm, Nat.add_left_comm]

/-- C7: `delete_mappings` with a fully-specified identity (both arguments
given, i.e. present and non-empty) removes exactly the rows of that identity,
leaves every other row, and returns the number of removed rows; with either
argument omitted it removes every row, after which the total count is 0. -/
theorem delete_identity_or_all (db : List DbRow) (n p : String)
    (hn : n ≠ "") (hp : p ≠ "") :
    ((delete_mappings db (some n) (some p)).1 =
        db.filter (fun r => decide (¬(r.1 = n ∧ r.2.1 = p)))) ∧
    ((delete_mappings db (some n) (some p)).2 =
        (db.filter (fun r => decide (r.1 = n ∧ r.2.1 = p))).length) ∧
    (∀ q : Option String, delete_mappings db none q = ([], db.length) ∧
        delete_mappings db q none = ([], db.length)) ∧
    get_all_mappings_count (delete_mappings db none none).1 = 0 := by
  have hcond : n ≠ "" ∧ p ≠ "" := ⟨hn, hp⟩
  refine ⟨?_, ?_, ?_, rfl⟩
  · show (if n ≠ "" ∧ p ≠ "" then _ else _ : List DbRow × Nat).1 = _
    rw [if_pos hcond]
  · show (if n ≠ "" ∧ p ≠ "" then _ else _ : List DbRow × Nat).2 = _
    rw [if_pos hcond]
    show db.length -
        (db.filter (fun r => decide (¬(r.1 = n ∧ r.2.1 = p)))).length = _
    have hsplit := length_filter_split (fun r => decide (r.1 = n ∧ r.2.1 = p)) db
    have hnot : (db.filter (fun r => !decide (r.1 = n ∧ r.2.1 = p))) =
        (db.filter (fun r => decide (¬(r.1 = n ∧ r.2.1 = p)))) := by
      apply List.filter_congr
      intro r _
      rw [decide_not]
    rw [hnot] at hsplit
    omega
  · intro q
    constructor
    · cases q <;> rfl
    · cases q <;> rfl

/-- Witness for C7 at a store with two identities: deleting `("a","p")` keeps
only the `("b","q")` row and reports 2 deleted rows; omitted arguments clear
the store. -/
theorem delete_identity_or_all_witness :
    ((delete_mappings [("a", "p", "x"), ("a", "p", "y"), ("b", "q", "z")]
        (some "a") (some "p")).1 =
      [("a", "p", "x"), ("a", "p", "y"), ("b", "q", "z")].filter
        (fun r => decide (¬(r.1 = "a" ∧ r.2.1 = "p")))) ∧
    ((delete_mappings [("a", "p", "x"), ("a", "p", "y"), ("b", "q", "z")]
        (some "a") (some "p")).2 =
      ([("a", "p", "x"), ("a", "p", "y"), ("b", "q", "z")].filter
        (fun r => decide (r.1 = "a" ∧ r.2.1 = "p"))).length) ∧
    (∀ q : Option String,
        delete_mappings [("a", "p", "x"), ("a", "p", "y"), ("b", "q", "z")]
          none q = ([], 3) ∧
        delete_mappings [("a", "p", "x"), ("a", "p", "y"), ("b", "q", "z")]
          q none = ([], 3)) ∧
    get_all_mappings_count
      (delete_mappings [("a", "p", "x"), ("a", "p", "y"), ("b", "q", "z")]
        none none).1 = 0 :=
  delete_identity_or_all [("a", "p", "x"), ("a", "p", "y"), ("b", "q", "z")]
    "a" "p" (by decide) (by decide)

/-- C10: `delete_mappings` treats an empty-string argument like an omitted
one: whenever either argument is `None` or the empty string the call deletes
every row, and only two present non-empty arguments restrict deletion to a
single identity. -/
theorem delete_empty_as_omitted (db : List DbRow) :
    (∀ q : Option String,
        delete_mappings db (some "") q = delete_mappings db none q ∧
        delete_mappings db q (some "") = delete_mappings db q none) ∧
    (∀ a b : Option String,
        (a = none ∨ a = some "" ∨ b = none ∨ b = some "") →
        delete_mappings db a b = ([], db.length)) ∧
    (∀ n p : String, n ≠ "" → p ≠ "" →
        (delete_mappings db (some n) (some p)).1 =
          db.filter (fun r => decide (¬(r.1 = n ∧ r.2.1 = p)))) := by
  have hleft : ∀ x : String,
      delete_mappings db (some "") (some x) = ([], db.length) := by
    intro x
    simp [delete_mappings]
  have hright : ∀ x : String,
      delete_mappings db (some x) (some "") = ([], db.length) := by
    intro x
    simp [delete_mappings]
  refine ⟨?_, ?_, ?_⟩
  · intro q
    constructor
    · cases q with
      | none => rfl
      | some x => rw [hleft x]; rfl
    · cases q with
      | none => rfl
      | some x => rw [hright x]; rfl
  · intro a b hab
    rcases hab with h | h | h | h
    · subst h; cases b <;> rfl
    · subst h
      cases b with
      | none => rfl
      | some y => exact hleft y
    · subst h; cases a <;> rfl
    · subst h
      cases a with
      | none => rfl
      | some x => exact hright x
  · intro n p hn hp
    show (if n ≠ "" ∧ p ≠ "" then _ else _ : List DbRow × Nat).1 = _
    rw [if_pos ⟨hn, hp⟩]

/-- Witness for C10: the empty-string name argument clears the whole store. -/
theorem delete_empty_as_omitted_witness :
    delete_mappings [("a", "p", "x"), ("b", "q", "z")] (some "") (some "p") =
      ([], 2) :=
  (delete_empty_as_omitted [("a", "p", "x"), ("b", "q", "z")]).2.1 (some "")
    (some "p") (Or.inr (Or.inl rfl))

theorem insLoopExc_committed (oracle : Nat → Bool) (k : MapIdent) :
    ∀ (names : List String) (c : SqlConn) (i cnt : Nat),
      (match insLoopExc oracle k names c i cnt with
       | .ok (c', _, _) => c'.committed
       | .error c' => c'.committed) = c.committed := by
  intro names
  induction names with
  | nil => intro c i cnt; rfl
  | cons n rest ih =>
    intro c i cnt
    simp only [insLoopExc]
    by_cases hoi : oracle i = true
    · rw [if_pos hoi]
    · rw [if_neg hoi]
      by_cases hmem : (k.1, k.2, n) ∈ c.pending
      · rw [if_pos hmem]
        by_cases hoi2 : oracle (i + 1) = true
        · rw [if_pos hoi2]
        · rw [if_neg hoi2]
          exact ih c (i + 2) cnt
      · rw [if_neg hmem]
        exact (ih (connInsert c (k.1, k.2, n)) (i + 1) (cnt + 1)).trans rfl

theorem saveLoopExc_committed (oracle : Nat → Bool) :
    ∀ (m : List (MapIdent × List String)) (c : SqlConn) (i cnt : Nat),
      (match saveLoopExc oracle m c i cnt with
       | .ok (c', _, _) => c'.committed
       | .error c' => c'.committed) = c.committed := by
  intro m
  induction m with
  | nil => intro c i cnt; rfl
  | cons em rest ih =>
    intro c i cnt
    obtain ⟨k, names⟩ := em
    simp only [saveLoopExc]
    by_cases hoi : oracle i = true
    · rw [if_pos hoi]
    · rw [if_neg hoi]
      have hins := insLoopExc_committed oracle k names (connDelete c k) (i + 1) cnt
      cases hq : insLoopExc oracle k names (connDelete c k) (i + 1) cnt with
      | error c' =>
        rw [hq] at hins
        exact hins.trans rfl
      | ok t =>
        obtain ⟨c', i', cnt'⟩ := t
        rw [hq] at hins
        exact (ih c' i' cnt').trans (hins.trans rfl)

/-- C6: when `save_mappings` meets an unexpected store-level failure anywhere
in the batch (including at commit), the transaction is rolled back: the
durable store state after the call equals the state before, no identity's
rows are partially replaced, and the failure is re-raised as the error
outcome. -/
theorem save_exc_rollback (db : List DbRow)
    (m : List (MapIdent × List String)) (oracle : Nat → Bool)
    (h : (save_mappings_exc db m oracle).2 = .error ()) :
    (save_mappings_exc db m oracle).1 = db := by
  have hcom := saveLoopExc_committed oracle m (openConn db) 0 0
  unfold save_mappings_exc at h ⊢
  cases hs : saveLoopExc oracle m (openConn db) 0 0 with
  | error c' =>
    rw [hs] at hcom
    simp only [hs]
    exact hcom
  | ok t =>
    obtain ⟨c', i', cnt⟩ := t
    rw [hs] at hcom
    rw [hs] at h
    simp only [hs]
    by_cases ho : oracle i' = true
    · show (if oracle i' = true
          then (connClose (connRollback c'), (Except.error () : Except Unit Nat))
          else (connClose (connCommit c'), Except.ok cnt)).1 = db
      rw [if_pos ho]
      exact hcom
    · have h' : (if oracle i' = true
          then (connClose (connRollback c'), (Except.error () : Except Unit Nat))
          else (connClose (connCommit c'), Except.ok cnt)).2 = Except.error () := h
      rw [if_neg ho] at h'
      exact absurd h' (by simp)

/-- Witness for C6: an oracle that fails the very first statement leaves a
one-row store untouched. -/
theorem save_exc_rollback_witness :
    (save_mappings_exc [("b", "q", "z")] [(("a", "p"), ["x"])]
        (fun _ => true)).1 = [("b", "q", "z")] :=
  save_exc_rollback [("b", "q", "z")] [(("a", "p"), ["x"])] (fun _ => true) rfl

theorem insLoopExc_no_failure (k : MapIdent) :
    ∀ (names : List String) (c : SqlConn) (i cnt : Nat),
      ∃ i' : Nat, insLoopExc (fun _ => false) k names c i cnt =
        .ok (⟨c.committed, (insertNames c.pending k names).1⟩, i',
          cnt + (insertNames c.pending k names).2) := by
  intro names
  induction names with
  | nil => intro c i cnt; exact ⟨i, by simp [insLoopExc, insertNames]⟩
  | cons n rest ih =>
    intro c i cnt
    simp only [insLoopExc, insertNames]
    rw [if_neg Bool.false_ne_true]
    by_cases hmem : (k.1, k.2, n) ∈ c.pending
    · rw [if_pos hmem, if_pos hmem, if_neg Bool.false_ne_true]
      exact ih c (i + 2) cnt
    · rw [if_neg hmem, if_neg hmem]
      obtain ⟨i', hi⟩ := ih (connInsert c (k.1, k.2, n)) (i + 1) (cnt + 1)
      refine ⟨i', hi.trans ?_⟩
      exact congrArg (fun t => (Except.ok
        (SqlConn.mk c.committed (insertNames (c.pending ++ [(k.1, k.2, n)]) k rest).1,
          i', t) : Except SqlConn (SqlConn × Nat × Nat)))
        (show cnt + 1 + (insertNames (c.pending ++ [(k.1, k.2, n)]) k rest).2 =
            cnt + ((insertNames (c.pending ++ [(k.1, k.2, n)]) k rest).2 + 1)
          by omega)

theorem saveLoopExc_no_failure :
    ∀ (m : List (MapIdent × List String)) (c : SqlConn) (i cnt : Nat),
      ∃ i' : Nat, saveLoopExc (fun _ => false) m c i cnt =
        .ok (⟨c.committed, (save_mappings c.pending m).1⟩, i',
          cnt + (save_mappings c.pending m).2) := by
  intro m
  induction m with
  | nil => intro c i cnt; exact ⟨i, by simp [saveLoopExc, save_mappings]⟩
  | cons em rest ih =>
    intro c i cnt
    obtain ⟨k, names⟩ := em
    simp only [saveLoopExc, save_mappings]
    rw [if_neg Bool.false_ne_true]
    obtain ⟨i1, hi1⟩ := insLoopExc_no_failure k names (connDelete c k) (i + 1) cnt
    have step1 : saveLoopExc (fun _ => false) ((k, names) :: rest) c i cnt =
        saveLoopExc (fun _ => false) rest
          ⟨c.committed, (insertNames (deleteIdent c.pending k) k names).1⟩ i1
          (cnt + (insertNames (deleteIdent c.pending k) k names).2) := by
      simp only [saveLoopExc]
      rw [if_neg Bool.false_ne_true, hi1]
      rfl
    obtain ⟨i', hi'⟩ := ih
      ⟨c.committed, (insertNames (deleteIdent c.pending k) k names).1⟩ i1
      (cnt + (insertNames (deleteIdent c.pending k) k names).2)
    refine ⟨i', (step1.trans hi').trans ?_⟩
    exact congrArg (fun t => (Except.ok
      (SqlConn.mk c.committed
          (save_mappings (insertNames (deleteIdent c.pending k) k names).1 rest).1,
        i', t) : Except SqlConn (SqlConn × Nat × Nat)))
      (show cnt + (insertNames (deleteIdent c.pending k) k names).2 +
            (save_mappings (insertNames (deleteIdent c.pending k) k names).1 rest).2 =
          cnt + ((insertNames (deleteIdent c.pending k) k names).2 +
            (save_mappings (insertNames (deleteIdent c.pending k) k names).1 rest).2)
        by omega)

/-- Coherence of the failure model with the pure embedding: when no statement
fails, `save_mappings_exc` commits and returns exactly the store state and
count of `save_mappings`. -/
theorem save_exc_agrees_pure (db : List DbRow)
    (m : List (MapIdent × List String)) :
    save_mappings_exc db m (fun _ => false) =
      ((save_mappings db m).1, .ok (save_mappings db m).2) := by
  obtain ⟨i', hi⟩ := saveLoopExc_no_failure m (openConn db) 0 0
  unfold save_mappings_exc
  rw [hi]
  show (if (false = true)
      then (connClose (connRollback ⟨db, (save_mappings db m).1⟩),
        (Except.error () : Except Unit Nat))
      else (connClose (connCommit ⟨db, (save_mappings db m).1⟩),
        Except.ok (0 + (save_mappings db m).2))) =
    ((save_mappings db m).1, Except.ok (save_mappings db m).2)
  rw [if_neg Bool.false_ne_true]
  simp [connClose, connCommit]
